import Mathlib

/-!
Verification development for the continuous SVERL-P attribution engine.

The repository sources available here are the README (`part_000`) and the
experiment notebook (`part_001`); the core engine components described by the
design document (ImputationProvider, Rollout Evaluator, CharacteristicFunction,
CharacteristicCache, ShapleyAggregator) are not present in the sources, so they
are modelled from the design document's own words, and each such definition is
marked `Modelled from the spec:`.  The LunarLander visualization loop, which is
present in the notebook, is embedded directly from that code.
-/

namespace XRL

/-! ## Data model (spec §3) -/

/-- Modelled from the spec: §3, a `Coalition` is a subset of feature indices,
represented canonically (a `Finset` of naturals) so two semantically equal
subsets produce identical cache keys.  The implementation is absent from the
sources. -/
abbrev Coalition : Type := Finset ℕ

/-- Modelled from the spec: §3, `CharacteristicKey` is the composite cache key
`(Coalition, ImputationMethodId, EvaluationContextId)`.  The implementation is
absent from the sources. -/
structure CharacteristicKey where
  coalition : Coalition
  methodId : ℕ
  contextId : ℕ
deriving DecidableEq

/-- Modelled from the spec: §3/§6, `CharacteristicValue` is a scalar estimate
plus Monte-Carlo spread information, serialized as
`(mean, standard_error, sample_count)`.  Rationals stand in for the machine
reals; the `standardError` field carries the (squared, hence rational)
standard-error figure of the batch.  The implementation is absent from the
sources. -/
structure CharacteristicValue where
  mean : ℚ
  standardError : ℚ
  sampleCount : ℕ
deriving DecidableEq

/-! ## CharacteristicCache and the memoized `value` operation (spec §4.3) -/

/-- Modelled from the spec: §4.3, the persisted `CharacteristicCache` is a
durable key-to-value store; modelled as an association list of entries.  The
implementation is absent from the sources (the README only documents the
`/characteristic_dicts` directory holding it). -/
abbrev CharacteristicCache : Type := List (CharacteristicKey × CharacteristicValue)

/-- Look a key up in the cache (first matching entry). -/
def lookupCache (c : CharacteristicCache) (k : CharacteristicKey) :
    Option CharacteristicValue :=
  match c with
  | [] => none
  | (k', v) :: rest => if k' = k then some v else lookupCache rest k

/-- Modelled from the spec: §4.3, `value(key, compute_fn)`: look `key` up in
the cache; on a hit return the stored value unchanged (read-through, never
silently refreshed); on a miss invoke `compute_fn`, store the result keyed by
`key`, and return it.  The result triple records the returned value, the cache
after the call (the durable store as persisted for later runs), and the number
of `compute_fn` invocations this call made (the instrumented call counter of
§8).  The implementation is absent from the sources. -/
def value (c : CharacteristicCache) (k : CharacteristicKey)
    (computeFn : Unit → CharacteristicValue) :
    CharacteristicValue × CharacteristicCache × ℕ :=
  match lookupCache c k with
  | some v => (v, c, 0)
  | none =>
    let v := computeFn ()
    (v, (k, v) :: c, 1)

/-! ## Persisted cache serialization (spec §6) -/

/-- Modelled from the spec: §6, keys serialize canonically as the sorted index
list (length-prefixed here so the flat token stream can be split back) followed
by the method tag and the context id.  The implementation is absent from the
sources. -/
def serializeKey (k : CharacteristicKey) : List ℕ :=
  k.coalition.card :: (k.coalition.sort (· ≤ ·) ++ [k.methodId, k.contextId])

/-- Modelled from the spec: §6, inverse of `serializeKey`; fails on token
streams that are not the serialization of a key. -/
def deserializeKey : List ℕ → Option CharacteristicKey
  | [] => none
  | n :: rest =>
    match rest.drop n with
    | [m, c] => some ⟨(rest.take n).toFinset, m, c⟩
    | _ => none

/-- Modelled from the spec: §6, values serialize as the flat record
`(mean, standard_error, sample_count)`, the count cast into the same scalar
token type. -/
def serializeValue (v : CharacteristicValue) : List ℚ :=
  [v.mean, v.standardError, (v.sampleCount : ℚ)]

/-- Modelled from the spec: §6, inverse of `serializeValue`; the count token
must be a natural number for the stream to be valid. -/
def deserializeValue : List ℚ → Option CharacteristicValue
  | [m, s, c] => if c = ((c.num.toNat : ℕ) : ℚ) then some ⟨m, s, c.num.toNat⟩ else none
  | _ => none

/-! ## Rollout Evaluator (spec §4.2) -/

/-- Modelled from the spec: §6, the external environment simulator interface:
`reset` returning an initial state given a seed, and `step` returning the next
state and the reward, deterministic functions of their arguments.  States are
vectors of `d` rational features (rationals stand in for the machine reals).
The implementation is absent from the sources. -/
structure EnvSim (d : ℕ) where
  reset : ℕ → (Fin d → ℚ)
  step : (Fin d → ℚ) → ℕ → (Fin d → ℚ) × ℚ

/-- Modelled from the spec: §4.1/§9, the imputation abstraction, polymorphic
over the variant: a provider draws a completion of the full state from the
coalition of observed feature indices, the observed values, and an explicit
random seed.  The implementation is absent from the sources. -/
structure ImputationProvider (d : ℕ) where
  sample : Finset (Fin d) → (Fin d → ℚ) → ℕ → (Fin d → ℚ)

/-- Modelled from the spec: §4.2, assemble the completed state: only the
coalition's features are "real", the rest come from the imputed completion. -/
def assemble {d : ℕ} (C : Finset (Fin d)) (s m : Fin d → ℚ) : Fin d → ℚ :=
  fun j => if j ∈ C then s j else m j

/-- Modelled from the spec: §4.2, the coalition-restricted observation handed
to the imputation provider (coordinates outside the coalition blanked out). -/
def restrictObs {d : ℕ} (C : Finset (Fin d)) (s : Fin d → ℚ) : Fin d → ℚ :=
  fun j => if j ∈ C then s j else 0

/-- Modelled from the spec: §4.2, the remaining discounted return of one
episode: at each timestep observe the true coalition-restricted state, impute
the remainder (one provider sample per step, seeded from the episode seed and
the timestep), assemble the completed state, query the policy for an action,
step the environment, and accumulate the discounted return. -/
def rolloutReturn {d : ℕ} (pol : (Fin d → ℚ) → ℕ) (env : EnvSim d)
    (imp : ImputationProvider d) (C : Finset (Fin d)) (disc : ℚ) (seed : ℕ) :
    ℕ → (Fin d → ℚ) → ℕ → ℚ
  | 0, _, _ => 0
  | h + 1, s, t =>
    let full := assemble C s (imp.sample C (restrictObs C s) (Nat.pair seed t))
    let res := env.step s (pol full)
    res.2 + disc * rolloutReturn pol env imp C disc seed h res.1 (t + 1)

/-- Sample mean of a list of rationals. -/
def listMean (l : List ℚ) : ℚ := l.sum / l.length

/-- Squared standard error of the mean of a list of rationals (the sample
variance divided by the sample count; kept squared so it stays rational). -/
def listStdErrSq (l : List ℚ) : ℚ :=
  ((l.map fun x => (x - listMean l) ^ 2).sum / l.length) / l.length

/-- Modelled from the spec: §4.2, `evaluate`: run `nEpisodes` independent
episodes, each seeded from the master seed and its episode index and reset to
an initial state, and return the sample mean return, its spread, and the
sample count as the `CharacteristicValue`. -/
def evaluate {d : ℕ} (pol : (Fin d → ℚ) → ℕ) (env : EnvSim d)
    (imp : ImputationProvider d) (C : Finset (Fin d)) (disc : ℚ)
    (nEpisodes horizon seed : ℕ) : CharacteristicValue :=
  let rets := (List.range nEpisodes).map fun e =>
    rolloutReturn pol env imp C disc (Nat.pair seed e) horizon
      (env.reset (Nat.pair seed e)) 0
  ⟨listMean rets, listStdErrSq rets, nEpisodes⟩

/-- Stated from the spec's words (§4.2/§8 correctness check): the remaining
discounted return of one episode of ordinary policy evaluation — the policy
always sees the true state, no imputation anywhere. -/
def undisturbedReturn {d : ℕ} (pol : (Fin d → ℚ) → ℕ) (env : EnvSim d)
    (disc : ℚ) : ℕ → (Fin d → ℚ) → ℚ
  | 0, _ => 0
  | h + 1, s =>
    let res := env.step s (pol s)
    res.2 + disc * undisturbedReturn pol env disc h res.1

/-- Stated from the spec's words (§8): the policy's undisturbed expected-return
estimate over the same episode seeds — the comparison point for the
full-coalition correctness property. -/
def undisturbedEval {d : ℕ} (pol : (Fin d → ℚ) → ℕ) (env : EnvSim d)
    (disc : ℚ) (nEpisodes horizon seed : ℕ) : CharacteristicValue :=
  let rets := (List.range nEpisodes).map fun e =>
    undisturbedReturn pol env disc horizon (env.reset (Nat.pair seed e))
  ⟨listMean rets, listStdErrSq rets, nEpisodes⟩

/-! ## ShapleyAggregator (spec §4.4) -/

/-- Modelled from the spec: §4.4, the coalition of features coming before `i`
in a feature ordering; an ordering is a permutation `τ` sending each feature to
its position. -/
def preceding {d : ℕ} (τ : Equiv.Perm (Fin d)) (i : Fin d) : Finset (Fin d) :=
  Finset.univ.filter fun j => τ j < τ i

/-- Modelled from the spec: §4.4, the marginal contribution of feature `i` on
top of coalition `S`: `v(S ∪ (i)) − v(S)`. -/
def marginal {d : ℕ} (v : Finset (Fin d) → ℚ) (S : Finset (Fin d)) (i : Fin d) : ℚ :=
  v (insert i S) - v S

/-- Modelled from the spec: §4.4, the exact-enumeration `ShapleyAggregator`:
the Shapley value of feature `i` is the expectation over uniformly random
feature orderings of the marginal contribution of `i` on top of the features
preceding it.  The implementation is absent from the sources. -/
def shapleyValue {d : ℕ} (v : Finset (Fin d) → ℚ) (i : Fin d) : ℚ :=
  (∑ τ : Equiv.Perm (Fin d), marginal v (preceding τ i) i) / (Nat.factorial d : ℚ)

/-- Modelled from the spec: §3/§4.4, the `ShapleyVector`: one Shapley value
per feature of the feature set. -/
def shapleyVector {d : ℕ} (v : Finset (Fin d) → ℚ) : Fin d → ℚ :=
  fun i => shapleyValue v i

/-- The initial segment of an ordering `τ`: the features placed at positions
strictly below `m`. -/
def preSegment {d : ℕ} (τ : Equiv.Perm (Fin d)) (m : ℕ) : Finset (Fin d) :=
  Finset.univ.filter fun j => (τ j : ℕ) < m

/-- Glue two feature-to-position bijections and the distinguished feature `i`
into a full feature ordering: the coalition `S` occupies the positions below
`s`, feature `i` position `s`, and the remaining features the positions above
`s`.  Used to count the orderings that place exactly `S` before `i`. -/
def glueOrdering {d : ℕ} (i : Fin d) (S : Finset (Fin d)) (s : ℕ)
    (hsd : s < d) (hiS : i ∉ S)
    (e₁ : {x : Fin d // x ∈ S} ≃ {p : Fin d // (p : ℕ) < s})
    (e₂ : {x : Fin d // x ∉ S ∧ x ≠ i} ≃ {p : Fin d // s < (p : ℕ)}) :
    Equiv.Perm (Fin d) where
  toFun x :=
    if hx : x ∈ S then (e₁ ⟨x, hx⟩ : Fin d)
    else if hxi : x = i then ⟨s, hsd⟩
    else (e₂ ⟨x, hx, hxi⟩ : Fin d)
  invFun p :=
    if hp : (p : ℕ) < s then (e₁.symm ⟨p, hp⟩ : Fin d)
    else if hps : s < (p : ℕ) then (e₂.symm ⟨p, hps⟩ : Fin d)
    else i
  left_inv := by
    have hns1 : ¬(((⟨s, hsd⟩ : Fin d) : ℕ) < s) := by simp
    have hns2 : ¬(s < ((⟨s, hsd⟩ : Fin d) : ℕ)) := by simp
    intro x
    dsimp only
    by_cases hx : x ∈ S
    · rw [dif_pos hx, dif_pos (e₁ ⟨x, hx⟩).2, Subtype.coe_eta,
        Equiv.symm_apply_apply]
    · by_cases hxi : x = i
      · subst hxi
        rw [dif_neg hx, dif_pos rfl, dif_neg hns1, dif_neg hns2]
      · rw [dif_neg hx, dif_neg hxi]
        have h2 := (e₂ ⟨x, ⟨hx, hxi⟩⟩).2
        rw [dif_neg (Nat.lt_asymm h2), dif_pos h2, Subtype.coe_eta,
          Equiv.symm_apply_apply]
  right_inv := by
    intro p
    dsimp only
    by_cases hp : (p : ℕ) < s
    · rw [dif_pos hp, dif_pos (e₁.symm ⟨p, hp⟩).2, Subtype.coe_eta,
        Equiv.apply_symm_apply]
    · by_cases hps : s < (p : ℕ)
      · rw [dif_neg hp, dif_pos hps]
        have h2 := (e₂.symm ⟨p, hps⟩).2
        rw [dif_neg h2.1, dif_neg h2.2, Subtype.coe_eta, Equiv.apply_symm_apply]
      · rw [dif_neg hp, dif_neg hps, dif_neg hiS, dif_pos rfl]
        have hval : (p : ℕ) = s := by omega
        exact Fin.ext (by simp [hval])

/-- Restrict a feature ordering that places exactly the coalition `S` before
feature `i` (at position `S.card`) to a bijection from `S` onto the positions
below `S.card`. -/
def orderingRestrictMem {d : ℕ} (i : Fin d) (S : Finset (Fin d))
    (τ : Equiv.Perm (Fin d)) (hiff : ∀ j, τ j < τ i ↔ j ∈ S)
    (hpos : (τ i : ℕ) = S.card) :
    {x : Fin d // x ∈ S} ≃ {p : Fin d // (p : ℕ) < S.card} where
  toFun x := ⟨τ x.1, by
    have h := (hiff x.1).mpr x.2
    rw [Fin.lt_def, hpos] at h
    exact h⟩
  invFun p := ⟨τ.symm p.1, by
    apply (hiff (τ.symm p.1)).mp
    rw [Equiv.apply_symm_apply, Fin.lt_def, hpos]
    exact p.2⟩
  left_inv x := Subtype.ext (τ.symm_apply_apply x.1)
  right_inv p := Subtype.ext (τ.apply_symm_apply p.1)

/-- Restrict a feature ordering that places exactly the coalition `S` before
feature `i` (at position `S.card`) to a bijection from the remaining features
onto the positions above `S.card`. -/
def orderingRestrictRest {d : ℕ} (i : Fin d) (S : Finset (Fin d))
    (τ : Equiv.Perm (Fin d)) (hiff : ∀ j, τ j < τ i ↔ j ∈ S)
    (hpos : (τ i : ℕ) = S.card) :
    {x : Fin d // x ∉ S ∧ x ≠ i} ≃ {p : Fin d // S.card < (p : ℕ)} where
  toFun x := ⟨τ x.1, by
    have hnlt : ¬(τ x.1 < τ i) := fun h => x.2.1 ((hiff x.1).mp h)
    rw [Fin.lt_def, hpos] at hnlt
    have hne : (τ x.1 : ℕ) ≠ S.card := by
      intro h
      apply x.2.2
      apply τ.injective
      apply Fin.ext
      rw [h, hpos]
    omega⟩
  invFun p := ⟨τ.symm p.1, by
    constructor
    · intro hmem
      have h := (hiff (τ.symm p.1)).mpr hmem
      rw [Equiv.apply_symm_apply, Fin.lt_def, hpos] at h
      have h2 := p.2
      omega
    · intro h
      have h2 := congrArg τ h
      rw [Equiv.apply_symm_apply] at h2
      have hval : (p.1 : ℕ) = S.card := by rw [h2, hpos]
      have h3 := p.2
      omega⟩
  left_inv x := Subtype.ext (τ.symm_apply_apply x.1)
  right_inv p := Subtype.ext (τ.apply_symm_apply p.1)

/-! ## Seeded determinism (spec §4.1/§9) -/

/-- Modelled from the spec: §9, the execution context of a stochastic call:
the explicit random-seed parameter threaded through the call, together with
whatever ambient global random state the process happens to carry.  The
refactoring obligation of §9 is that operations read only the explicit
seed. -/
structure SeededCtx where
  seed : ℕ
  globalRand : ℕ

/-- Modelled from the spec: §4.1, imputation sampling as a stochastic
operation in context: it reads only the explicit seed. -/
def sampleWithCtx {d : ℕ} (imp : ImputationProvider d) (C : Finset (Fin d))
    (obs : Fin d → ℚ) (ctx : SeededCtx) : Fin d → ℚ :=
  imp.sample C obs ctx.seed

/-- Modelled from the spec: §4.2, rollout evaluation as a stochastic operation
in context: it reads only the explicit seed. -/
def evaluateWithCtx {d : ℕ} (pol : (Fin d → ℚ) → ℕ) (env : EnvSim d)
    (imp : ImputationProvider d) (C : Finset (Fin d)) (disc : ℚ)
    (nEpisodes horizon : ℕ) (ctx : SeededCtx) : CharacteristicValue :=
  evaluate pol env imp C disc nEpisodes horizon ctx.seed

/-- Modelled from the spec: §4.4, Shapley permutation sampling: the explicit
seed selects a feature ordering (as a list to be walked left to right) from
the enumerated orderings. -/
def samplePermutation (d : ℕ) (seed : ℕ) : List (Fin d) :=
  (List.finRange d).permutations.getD
    (seed % (List.finRange d).permutations.length) (List.finRange d)

/-- The features strictly before `i` in an ordering list. -/
def listPreceding {d : ℕ} (l : List (Fin d)) (i : Fin d) : Finset (Fin d) :=
  (l.takeWhile fun j => decide (j ≠ i)).toFinset

/-- Modelled from the spec: §4.4, Monte-Carlo permutation-sampling Shapley
estimation for feature `i` over `nPerms` sampled orderings: walk each sampled
ordering and attribute the marginal contribution of `i` on top of the features
before it. -/
def mcShapley {d : ℕ} (v : Finset (Fin d) → ℚ) (i : Fin d)
    (nPerms seed : ℕ) : ℚ :=
  ((List.range nPerms).map fun m =>
      marginal v (listPreceding (samplePermutation d (Nat.pair seed m)) i) i).sum
    / (nPerms : ℚ)

/-- Modelled from the spec: §4.4, Monte-Carlo Shapley permutation sampling as
a stochastic operation in context: it reads only the explicit seed. -/
def mcShapleyWithCtx {d : ℕ} (v : Finset (Fin d) → ℚ) (i : Fin d)
    (nPerms : ℕ) (ctx : SeededCtx) : ℚ :=
  mcShapley v i nPerms ctx.seed

/-! ## Concurrent single-flight cache protocol (spec §4.3/§5) -/

/-- Modelled from the spec: §5, an event of the concurrent cache protocol: a
caller requests a key, or the in-flight computation of a key completes. -/
inductive FlightEvent where
  | request : ℕ → CharacteristicKey → FlightEvent
  | complete : CharacteristicKey → FlightEvent
deriving DecidableEq

/-- The key an event concerns. -/
def FlightEvent.key : FlightEvent → CharacteristicKey
  | .request _ k => k
  | .complete k => k

/-- Modelled from the spec: §4.3/§5, the coordination state of the
characteristic-function cache under concurrency: the persisted cache, the
in-flight marks, the callers awaiting each in-flight key, the responses
delivered so far, and an instrumentation counter of computations started per
key. -/
@[ext]
structure FlightState where
  cache : CharacteristicKey → Option CharacteristicValue
  inFlight : CharacteristicKey → Bool
  waiters : Multiset (ℕ × CharacteristicKey)
  results : Multiset (ℕ × CharacteristicKey × CharacteristicValue)
  computes : CharacteristicKey → ℕ

/-- The idle initial state: empty cache (every key uncached), nothing in
flight, no computation started. -/
def FlightState.init : FlightState :=
  ⟨fun _ => none, fun _ => false, 0, 0, fun _ => 0⟩

/-- A key is busy once its value is cached or its computation is in flight. -/
def FlightState.busy (st : FlightState) (k : CharacteristicKey) : Bool :=
  (st.cache k).isSome || st.inFlight k

/-- Modelled from the spec: §4.3/§5, one protocol step.  A request for a
cached key is answered from the cache; a request for an uncached key joins
the waiters and starts the single in-flight computation only when none is
running; a completion delivers the computed value to every waiter of that key,
persists it, and clears the in-flight mark.  `computeFn` is the deterministic
rollout computation bound per key. -/
def applyEvent (computeFn : CharacteristicKey → CharacteristicValue)
    (st : FlightState) : FlightEvent → FlightState
  | .request caller k =>
    match st.cache k with
    | some v => { st with results := (caller, k, v) ::ₘ st.results }
    | none =>
      if st.inFlight k then
        { st with waiters := (caller, k) ::ₘ st.waiters }
      else
        { st with
            inFlight := Function.update st.inFlight k true
            waiters := (caller, k) ::ₘ st.waiters
            computes := Function.update st.computes k (st.computes k + 1) }
  | .complete k =>
    if st.inFlight k then
      { st with
          cache := Function.update st.cache k (some (computeFn k))
          inFlight := Function.update st.inFlight k false
          results := (Multiset.filter (fun w => w.2 = k) st.waiters).map
              (fun w => (w.1, k, computeFn k)) + st.results
          waiters := Multiset.filter (fun w => ¬(w.2 = k)) st.waiters }
    else st

/-- Run the protocol from a state over a sequence of interleaved events. -/
def runEvents (computeFn : CharacteristicKey → CharacteristicValue)
    (st : FlightState) : List FlightEvent → FlightState
  | [] => st
  | e :: es => runEvents computeFn (applyEvent computeFn st e) es

/-- A concrete event interleaving used by witnesses: two concurrent requests
for the same uncached key, then the completion of its single computation. -/
def eventsW : List FlightEvent :=
  [.request 0 ⟨{0}, 1, 2⟩, .request 1 ⟨{0}, 1, 2⟩, .complete ⟨{0}, 1, 2⟩]

/-- A concrete per-key compute function used by witnesses. -/
def computeFnW : CharacteristicKey → CharacteristicValue :=
  fun k => ⟨(k.methodId : ℚ), 0, 7⟩

/-! ## Error propagation in batch evaluation (spec §7) -/

/-- Modelled from the spec: §7, the ways a `value()` request fails at the
batch level. -/
inductive EvalError where
  | zeroSurvivors : EvalError
  | tooFewSurvivors : EvalError
deriving DecidableEq

/-- Modelled from the spec: §7, run a batch of episodes in which a sampling or
model error aborts the affected episode only (`none`); the surviving episode
returns are kept. -/
def survivingReturns (episode : ℕ → Option ℚ) (nEpisodes : ℕ) : List ℚ :=
  (List.range nEpisodes).filterMap episode

/-- Modelled from the spec: §7, batch evaluation with error propagation: the
batch statistics are computed only over the surviving episodes, a
minimum-surviving-episode-count check guards acceptance, and a batch with zero
surviving episodes fails the whole `value()` request instead of silently
returning a value computed from zero data. -/
def evaluateFallible (episode : ℕ → Option ℚ) (nEpisodes minSurvivors : ℕ) :
    Except EvalError CharacteristicValue :=
  let survivors := survivingReturns episode nEpisodes
  if survivors.length = 0 then .error .zeroSurvivors
  else if survivors.length < minSurvivors then .error .tooFewSurvivors
  else .ok ⟨listMean survivors, listStdErrSq survivors, survivors.length⟩

/-- Modelled from the spec: §7, one aggregation run: each coalition's
`value()` request is evaluated independently and the per-coalition outcomes
are reported side by side, so a failing coalition leaves the other coalitions'
results intact. -/
def aggregationRun {d : ℕ} (episodeFor : Finset (Fin d) → ℕ → Option ℚ)
    (nEpisodes minSurvivors : ℕ) (coalitions : List (Finset (Fin d))) :
    List (Finset (Fin d) × Except EvalError CharacteristicValue) :=
  coalitions.map fun C => (C, evaluateFallible (episodeFor C) nEpisodes minSurvivors)

/-! ## Imputation sample validation (spec §4.1/§7) -/

/-- Modelled from the spec: §4.1, the environment's valid observation bounds,
one interval per feature. -/
structure ObsBounds (d : ℕ) where
  lo : Fin d → ℚ
  hi : Fin d → ℚ

/-- A state lies within the observation bounds (rationals carry no NaN or
undefined value, so out-of-interval is the representable failure mode). -/
def withinBounds {d : ℕ} (b : ObsBounds d) (s : Fin d → ℚ) : Bool :=
  (List.finRange d).all fun j => decide (b.lo j ≤ s j) && decide (s j ≤ b.hi j)

/-- Modelled from the spec: §7, a `SamplingError` report identifies the
offending coalition and imputation method. -/
structure SamplingError (d : ℕ) where
  coalition : Finset (Fin d)
  methodId : ℕ
deriving DecidableEq

/-- Clip a state into the observation bounds; applied only when an
environment-specific clipping policy is explicitly configured. -/
def clipState {d : ℕ} (b : ObsBounds d) (s : Fin d → ℚ) : Fin d → ℚ :=
  fun j => max (b.lo j) (min (b.hi j) (s j))

/-- Modelled from the spec: §4.1/§7, draw `n` imputation samples and validate
them against the environment's observation bounds: an out-of-bound sample is
reported as a `SamplingError` naming the offending coalition and method — not
silently clipped — unless an environment-specific clipping policy is
explicitly configured, in which case samples are clipped into bounds. -/
def checkedSamples {d : ℕ} (b : ObsBounds d) (clipPolicy : Bool)
    (imp : ImputationProvider d) (methodId : ℕ) (C : Finset (Fin d))
    (obs : Fin d → ℚ) (n seed : ℕ) :
    Except (SamplingError d) (List (Fin d → ℚ)) :=
  let raw := (List.range n).map fun t => imp.sample C obs (Nat.pair seed t)
  match clipPolicy with
  | true => .ok (raw.map (clipState b))
  | false =>
    if raw.all (withinBounds b) then .ok raw else .error ⟨C, methodId⟩

/-! ## The LunarLander visualization loop (notebook `part_001`) -/

/-- The result quintuple of `env.step(action)` in the notebook:
`state, reward, terminated, truncated, _`.  The field names follow the
notebook's binding. -/
structure StepResult (E O : Type) where
  state : O
  reward : ℚ
  terminated : Bool
  truncated : Bool
  envAfter : E

/-- The external objects used by the notebook's LunarLander visualization
cell: `model.predict obs` returns a pair whose first component is the action,
`env.reset()` returns a pair whose first component is the observation (and the
simulator moves to a fresh hidden state), and `env.step action` returns the
step quintuple. -/
structure VizModel (E O A P : Type) where
  predict : O → A × P
  reset : E → O × E
  step : E → A → StepResult E O

/-- The loop variables of the visualization cell (`part_001`, LunarLander
cell): the environment handle, the variable `obs` (assigned only from
`env.reset()[0]`), and the variable `state` (assigned from `env.step(action)`
and never copied into `obs`).  The ghost field `lastResetObs` records the
observation returned by the most recent `env.reset()` call, for stating the
loop invariant. -/
structure VizState (E O : Type) where
  env : E
  obs : O
  stateVar : Option O
  lastResetObs : O

/-- The initialization before the loop: `obs = env.reset()[0]`. -/
def vizInit {E O A P : Type} (M : VizModel E O A P) (e0 : E) : VizState E O :=
  let r := M.reset e0
  ⟨r.2, r.1, none, r.1⟩

/-- One iteration of the notebook's visualization loop:
`action = model.predict(obs)[0]`; bind `env.step(action)` to
`state, reward, terminated, truncated, _`; render; and only when
`terminated or truncated` re-assign `obs = env.reset()[0]`.  The step result
is bound to `state` and never written back to `obs`. -/
def vizStep {E O A P : Type} (M : VizModel E O A P) (s : VizState E O) :
    VizState E O :=
  let action := (M.predict s.obs).1
  let r := M.step s.env action
  if r.terminated || r.truncated then
    let rr := M.reset r.envAfter
    ⟨rr.2, rr.1, some r.state, rr.1⟩
  else
    ⟨r.envAfter, s.obs, some r.state, s.lastResetObs⟩

/-- `n` iterations of the visualization loop from a fresh environment. -/
def vizRun {E O A P : Type} (M : VizModel E O A P) (e0 : E) (n : ℕ) :
    VizState E O :=
  (vizStep M)^[n] (vizInit M e0)

/-- A concrete key used by witnesses: the singleton coalition of feature 0,
method tag 1, context 2. -/
def keyW : CharacteristicKey := ⟨{0}, 1, 2⟩

/-- A concrete compute function used by witnesses. -/
def computeW : Unit → CharacteristicValue := fun _ => ⟨3/2, 1/10, 5⟩

/-- A concrete two-feature environment used by witnesses. -/
def envW : EnvSim 2 where
  reset seed := fun _ => ((seed % 3 : ℕ) : ℚ)
  step s a := (fun j => s j + (a : ℚ), s 0 + s 1)

/-- A concrete policy used by witnesses. -/
def polW : (Fin 2 → ℚ) → ℕ := fun s => if s 0 ≤ s 1 then 0 else 1

/-- A concrete imputation provider used by witnesses. -/
def impW : ImputationProvider 2 where
  sample _ obs seed := fun j => obs j + ((seed % 5 : ℕ) : ℚ)

/-- A concrete characteristic function used by witnesses. -/
def vW : Finset (Fin 2) → ℚ := fun S => (S.card : ℚ)

/-- A concrete stochastic-call context used by witnesses. -/
def ctxA : SeededCtx := ⟨5, 17⟩

/-- A concrete stochastic-call context differing from `ctxA` only in the
ambient global random state. -/
def ctxB : SeededCtx := ⟨5, 99⟩

/-- A concrete per-coalition episode function used by witnesses: the empty
coalition loses every episode, other coalitions survive the even episode
indices. -/
def episodeForW : Finset (Fin 2) → ℕ → Option ℚ := fun C e =>
  if C = ∅ then none else if e % 2 = 0 then some (C.card : ℚ) else none

/-- A concrete coalition list used by witnesses. -/
def coalitionsW : List (Finset (Fin 2)) := [∅, {0}, Finset.univ]

/-- Concrete observation bounds used by witnesses. -/
def boundsW : ObsBounds 2 := ⟨fun _ => 0, fun _ => 10⟩

/-- A concrete visualization model used by witnesses: the hidden environment
state counts calls, episodes terminate on even counter values. -/
def vizModelW : VizModel ℕ ℚ ℕ ℕ where
  predict o := (if o ≤ 3 then 1 else 0, 0)
  reset e := ((e : ℚ), e + 1)
  step e _ := ⟨(e : ℚ), 1, decide (e % 2 = 0), false, e + 1⟩

/-! # Theorems -/

/-- Helper: the hit branch of `value` returns the stored value unchanged and
performs no computation. -/
theorem value_hit (c : CharacteristicCache) (k : CharacteristicKey)
    (f : Unit → CharacteristicValue) (v : CharacteristicValue)
    (h : lookupCache c k = some v) : value c k f = (v, c, 0) := by
  unfold value
  rw [h]

/-- Helper: the miss branch of `value` computes once and persists the result. -/
theorem value_miss (c : CharacteristicCache) (k : CharacteristicKey)
    (f : Unit → CharacteristicValue) (h : lookupCache c k = none) :
    value c k f = (f (), (k, f ()) :: c, 1) := by
  unfold value
  rw [h]

/-- Helper: after `value` runs on `k`, the cache always holds the returned
value at `k`. -/
theorem lookupCache_value (c : CharacteristicCache) (k : CharacteristicKey)
    (f : Unit → CharacteristicValue) :
    lookupCache (value c k f).2.1 k = some (value c k f).1 := by
  unfold value
  cases h : lookupCache c k with
  | some v => simp [h]
  | none => simp [lookupCache]

/-- C1: starting from a cache with no entry for `k` (an uncached key), the
first `value` call computes exactly once; a second `value` call on the
persisted cache returns a result identical to the first call's and performs no
computation, so the two calls together invoke `compute_fn` exactly once; and on
any cache hit (`k` already stored, as after re-running with an unchanged
coalition/method/context set) the stored value is returned unchanged with no
new rollout computation. -/
theorem value_idempotent_single_compute (c : CharacteristicCache)
    (k : CharacteristicKey) (f : Unit → CharacteristicValue)
    (hmiss : lookupCache c k = none) :
    (value (value c k f).2.1 k f).1 = (value c k f).1 ∧
    (value c k f).2.2 + (value (value c k f).2.1 k f).2.2 = 1 ∧
    (∀ c' v, lookupCache c' k = some v → value c' k f = (v, c', 0)) := by
  have h2 := value_hit (value c k f).2.1 k f (value c k f).1 (lookupCache_value c k f)
  refine ⟨?_, ?_, fun c' v hv => value_hit c' k f v hv⟩
  · rw [h2]
  · rw [h2, value_miss c k f hmiss]
    rfl

/-- Witness for C1 at the empty (freshly created) cache and the concrete key
`keyW`: both hypotheses evaluate, and the conclusion is obtained by applying
the theorem there. -/
theorem value_idempotent_single_compute_witness :
    (value (value [] keyW computeW).2.1 keyW computeW).1
        = (value [] keyW computeW).1 ∧
    (value [] keyW computeW).2.2
        + (value (value [] keyW computeW).2.1 keyW computeW).2.2 = 1 ∧
    (∀ c' v, lookupCache c' keyW = some v → value c' keyW computeW = (v, c', 0)) :=
  value_idempotent_single_compute [] keyW computeW rfl

/-- Helper: deserializing the serialization of any `CharacteristicKey` yields
the original key. -/
theorem deserializeKey_serializeKey (k : CharacteristicKey) :
    deserializeKey (serializeKey k) = some k := by
  obtain ⟨S, m, c⟩ := k
  have hlen : (S.sort (· ≤ ·)).length = S.card := Finset.length_sort _
  simp only [serializeKey, deserializeKey]
  rw [← hlen, List.drop_left, List.take_left]
  simp [Finset.sort_toFinset]

/-- Helper: deserializing the serialization of any `CharacteristicValue`
yields the original value. -/
theorem deserializeValue_serializeValue (v : CharacteristicValue) :
    deserializeValue (serializeValue v) = some v := by
  obtain ⟨m, s, n⟩ := v
  simp [serializeValue, deserializeValue]

/-- C5: cache serialization round-trips exactly: for every
`CharacteristicKey` — every coalition shape included: empty, singleton, full,
arbitrary subset — and every `CharacteristicValue`, deserializing the
serialization yields the original datum. -/
theorem serialization_round_trip (k : CharacteristicKey)
    (v : CharacteristicValue) :
    deserializeKey (serializeKey k) = some k ∧
    deserializeValue (serializeValue v) = some v :=
  ⟨deserializeKey_serializeKey k, deserializeValue_serializeValue v⟩

/-- Helper: assembling over the full coalition returns the true state,
whatever the imputed completion is. -/
theorem assemble_univ {d : ℕ} (s m : Fin d → ℚ) :
    assemble Finset.univ s m = s := by
  funext j
  simp [assemble]

/-- Helper: a full-coalition rollout is ordinary policy evaluation, for every
provider, start state, and timestep. -/
theorem rolloutReturn_univ {d : ℕ} (pol : (Fin d → ℚ) → ℕ) (env : EnvSim d)
    (imp : ImputationProvider d) (disc : ℚ) (seed : ℕ) (h : ℕ)
    (s : Fin d → ℚ) (t : ℕ) :
    rolloutReturn pol env imp Finset.univ disc seed h s t
      = undisturbedReturn pol env disc h s := by
  induction h generalizing s t with
  | zero => rfl
  | succ n ih =>
    simp only [rolloutReturn, undisturbedReturn, assemble_univ, ih]

/-- C2: evaluating the characteristic function on the full coalition (all
feature indices) performs no imputation — the result is the same for every
imputation provider — and equals the policy's undisturbed expected-return
estimate exactly (hence in particular within Monte-Carlo tolerance). -/
theorem evaluate_univ_undisturbed {d : ℕ} (pol : (Fin d → ℚ) → ℕ)
    (env : EnvSim d) (imp : ImputationProvider d) (disc : ℚ)
    (nEpisodes horizon seed : ℕ) :
    evaluate pol env imp Finset.univ disc nEpisodes horizon seed
      = undisturbedEval pol env disc nEpisodes horizon seed := by
  simp only [evaluate, undisturbedEval, rolloutReturn_univ]

/-- Helper: the features preceding `i` are the initial segment up to `i`'s
position. -/
theorem preceding_eq_preSegment {d : ℕ} (τ : Equiv.Perm (Fin d)) (i : Fin d) :
    preceding τ i = preSegment τ (τ i) := by
  ext j
  simp only [preceding, preSegment, Finset.mem_filter, Finset.mem_univ, true_and]
  exact Fin.lt_def

/-- Helper: inserting `i` into the features preceding it extends the initial
segment one position past `i`. -/
theorem insert_preceding_eq_preSegment {d : ℕ} (τ : Equiv.Perm (Fin d))
    (i : Fin d) :
    insert i (preceding τ i) = preSegment τ ((τ i : ℕ) + 1) := by
  ext j
  simp only [Finset.mem_insert, preceding, preSegment, Finset.mem_filter,
    Finset.mem_univ, true_and, Fin.lt_def]
  constructor
  · rintro (rfl | hj) <;> omega
  · intro hj
    rcases Nat.lt_or_ge (τ j : ℕ) (τ i : ℕ) with h | h
    · exact Or.inr h
    · have : (τ j : ℕ) = (τ i : ℕ) := by omega
      exact Or.inl (τ.injective (Fin.ext this))

/-- Helper: the empty initial segment. -/
theorem preSegment_zero {d : ℕ} (τ : Equiv.Perm (Fin d)) :
    preSegment τ 0 = ∅ := by
  ext j
  simp [preSegment]

/-- Helper: the complete initial segment is the full feature set. -/
theorem preSegment_top {d : ℕ} (τ : Equiv.Perm (Fin d)) :
    preSegment τ d = Finset.univ := by
  ext j
  simp [preSegment, Fin.is_lt]

/-- Helper: along one fixed ordering the marginal contributions telescope to
`v(FeatureSet) − v(∅)`. -/
theorem sum_marginal_ordering {d : ℕ} (v : Finset (Fin d) → ℚ)
    (τ : Equiv.Perm (Fin d)) :
    ∑ i : Fin d, marginal v (preceding τ i) i = v Finset.univ - v ∅ := by
  have hstep : ∀ i : Fin d, marginal v (preceding τ i) i
      = v (preSegment τ ((τ i : ℕ) + 1)) - v (preSegment τ (τ i : ℕ)) := by
    intro i
    rw [marginal, insert_preceding_eq_preSegment, preceding_eq_preSegment]
  calc
    ∑ i : Fin d, marginal v (preceding τ i) i
        = ∑ i : Fin d,
            (v (preSegment τ ((τ i : ℕ) + 1)) - v (preSegment τ (τ i : ℕ))) :=
      Finset.sum_congr rfl fun i _ => hstep i
    _ = ∑ p : Fin d,
            (v (preSegment τ ((p : ℕ) + 1)) - v (preSegment τ (p : ℕ))) :=
      Equiv.sum_comp τ fun p : Fin d =>
        v (preSegment τ ((p : ℕ) + 1)) - v (preSegment τ (p : ℕ))
    _ = ∑ m ∈ Finset.range d,
            (v (preSegment τ (m + 1)) - v (preSegment τ m)) :=
      Fin.sum_univ_eq_sum_range (fun m => v (preSegment τ (m + 1)) - v (preSegment τ m)) d
    _ = v (preSegment τ d) - v (preSegment τ 0) :=
      Finset.sum_range_sub (fun m => v (preSegment τ m)) d
    _ = v Finset.univ - v ∅ := by rw [preSegment_zero, preSegment_top]

/-- C4: the efficiency axiom: for every characteristic function (hence every
imputation method), the Shapley vector entries sum exactly to
`v(FeatureSet) − v(∅)` — in particular within combined estimation error. -/
theorem shapleyVector_efficiency {d : ℕ} (v : Finset (Fin d) → ℚ) :
    ∑ i : Fin d, shapleyVector v i = v Finset.univ - v ∅ := by
  have hcard : (Fintype.card (Equiv.Perm (Fin d)) : ℚ) = (Nat.factorial d : ℚ) := by
    rw [Fintype.card_perm, Fintype.card_fin]
  have hne : (Nat.factorial d : ℚ) ≠ 0 :=
    Nat.cast_ne_zero.mpr (Nat.factorial_ne_zero d)
  calc
    ∑ i : Fin d, shapleyVector v i
        = (∑ i : Fin d, ∑ τ : Equiv.Perm (Fin d),
            marginal v (preceding τ i) i) / (Nat.factorial d : ℚ) := by
      rw [Finset.sum_div]
      rfl
    _ = (∑ τ : Equiv.Perm (Fin d), ∑ i : Fin d,
            marginal v (preceding τ i) i) / (Nat.factorial d : ℚ) := by
      rw [Finset.sum_comm]
    _ = (∑ τ : Equiv.Perm (Fin d), (v Finset.univ - v ∅)) / (Nat.factorial d : ℚ) := by
      rw [Finset.sum_congr rfl fun τ _ => sum_marginal_ordering v τ]
    _ = v Finset.univ - v ∅ := by
      rw [Finset.sum_const, Finset.card_univ, nsmul_eq_mul, hcard,
        mul_div_cancel_left₀ _ hne]

/-- Helper: the positions of `Fin d` below a bound `k ≤ d` number exactly
`k`. -/
theorem card_filter_coe_lt {d : ℕ} (k : ℕ) (hk : k ≤ d) :
    (Finset.univ.filter fun p : Fin d => (p : ℕ) < k).card = k := by
  refine Finset.card_eq_of_bijective
    (fun m hm => (⟨m, lt_of_lt_of_le hm hk⟩ : Fin d)) ?_ ?_ ?_
  · intro p hp
    rw [Finset.mem_filter] at hp
    exact ⟨(p : ℕ), hp.2, Fin.ext rfl⟩
  · intro m hm
    rw [Finset.mem_filter]
    exact ⟨Finset.mem_univ _, hm⟩
  · intro m n hm hn hmn
    simpa using hmn

/-- Helper: the positions of `Fin d` above a bound `k < d` number exactly
`d − (k + 1)`. -/
theorem card_filter_coe_gt {d : ℕ} (k : ℕ) (hk : k < d) :
    (Finset.univ.filter fun p : Fin d => k < (p : ℕ)).card = d - (k + 1) := by
  have hsplit := Finset.filter_card_add_filter_neg_card_eq_card
    (s := (Finset.univ : Finset (Fin d))) (fun p : Fin d => (p : ℕ) < k + 1)
  have hcongr : (Finset.univ.filter fun p : Fin d => ¬((p : ℕ) < k + 1))
      = Finset.univ.filter fun p : Fin d => k < (p : ℕ) := by
    apply Finset.filter_congr
    intro p _
    rw [Nat.not_lt]
    exact Nat.lt_iff_add_one_le.symm
  rw [hcongr, card_filter_coe_lt (k + 1) hk, Finset.card_univ,
    Fintype.card_fin] at hsplit
  omega

/-- Helper: membership form of "exactly the coalition `S` comes before `i` in
the ordering `τ`". -/
theorem preceding_eq_iff_mem {d : ℕ} (τ : Equiv.Perm (Fin d)) (i : Fin d)
    (S : Finset (Fin d)) (hτ : preceding τ i = S) (j : Fin d) :
    τ j < τ i ↔ j ∈ S := by
  rw [← hτ]
  simp [preceding]

/-- Helper: if exactly the coalition `S` comes before `i`, then `i` sits at
position `S.card`. -/
theorem pos_of_preceding_eq {d : ℕ} (τ : Equiv.Perm (Fin d)) (i : Fin d)
    (S : Finset (Fin d)) (hτ : preceding τ i = S) : (τ i : ℕ) = S.card := by
  have hiff := preceding_eq_iff_mem τ i S hτ
  have himg : S.image τ
      = Finset.univ.filter fun p : Fin d => (p : ℕ) < (τ i : ℕ) := by
    ext p
    simp only [Finset.mem_image, Finset.mem_filter, Finset.mem_univ, true_and]
    constructor
    · rintro ⟨j, hj, rfl⟩
      exact Fin.lt_def.mp ((hiff j).mpr hj)
    · intro hp
      refine ⟨τ.symm p, ?_, τ.apply_symm_apply p⟩
      apply (hiff _).mp
      rw [Equiv.apply_symm_apply]
      exact Fin.lt_def.mpr hp
  have h1 : (S.image τ).card = S.card := Finset.card_image_of_injective S τ.injective
  rw [himg, card_filter_coe_lt _ (le_of_lt (τ i).is_lt)] at h1
  exact h1

/-- Helper: the glued ordering sends a coalition feature to its position under
the first bijection. -/
theorem glueOrdering_apply_mem {d : ℕ} (i : Fin d) (S : Finset (Fin d))
    (s : ℕ) (hsd : s < d) (hiS : i ∉ S)
    (e₁ : {x : Fin d // x ∈ S} ≃ {p : Fin d // (p : ℕ) < s})
    (e₂ : {x : Fin d // x ∉ S ∧ x ≠ i} ≃ {p : Fin d // s < (p : ℕ)})
    (x : Fin d) (hx : x ∈ S) :
    glueOrdering i S s hsd hiS e₁ e₂ x = (e₁ ⟨x, hx⟩ : Fin d) := dif_pos hx

/-- Helper: the glued ordering sends `i` to position `s`. -/
theorem glueOrdering_apply_self {d : ℕ} (i : Fin d) (S : Finset (Fin d))
    (s : ℕ) (hsd : s < d) (hiS : i ∉ S)
    (e₁ : {x : Fin d // x ∈ S} ≃ {p : Fin d // (p : ℕ) < s})
    (e₂ : {x : Fin d // x ∉ S ∧ x ≠ i} ≃ {p : Fin d // s < (p : ℕ)}) :
    glueOrdering i S s hsd hiS e₁ e₂ i = ⟨s, hsd⟩ := by
  show (if hx : i ∈ S then (e₁ ⟨i, hx⟩ : Fin d)
    else if hxi : i = i then (⟨s, hsd⟩ : Fin d)
    else (e₂ ⟨i, hx, hxi⟩ : Fin d)) = ⟨s, hsd⟩
  rw [dif_neg hiS, dif_pos rfl]

/-- Helper: the glued ordering sends the remaining features to their positions
under the second bijection. -/
theorem glueOrdering_apply_rest {d : ℕ} (i : Fin d) (S : Finset (Fin d))
    (s : ℕ) (hsd : s < d) (hiS : i ∉ S)
    (e₁ : {x : Fin d // x ∈ S} ≃ {p : Fin d // (p : ℕ) < s})
    (e₂ : {x : Fin d // x ∉ S ∧ x ≠ i} ≃ {p : Fin d // s < (p : ℕ)})
    (x : Fin d) (hx : x ∉ S) (hxi : x ≠ i) :
    glueOrdering i S s hsd hiS e₁ e₂ x = (e₂ ⟨x, hx, hxi⟩ : Fin d) := by
  show (if hx : x ∈ S then (e₁ ⟨x, hx⟩ : Fin d)
    else if hxi : x = i then (⟨s, hsd⟩ : Fin d)
    else (e₂ ⟨x, hx, hxi⟩ : Fin d)) = _
  rw [dif_neg hx, dif_neg hxi]

/-- Helper: the glued ordering places exactly the coalition `S` before `i`. -/
theorem preceding_glueOrdering {d : ℕ} (i : Fin d) (S : Finset (Fin d))
    (hsd : S.card < d) (hiS : i ∉ S)
    (e₁ : {x : Fin d // x ∈ S} ≃ {p : Fin d // (p : ℕ) < S.card})
    (e₂ : {x : Fin d // x ∉ S ∧ x ≠ i} ≃ {p : Fin d // S.card < (p : ℕ)}) :
    preceding (glueOrdering i S S.card hsd hiS e₁ e₂) i = S := by
  ext j
  simp only [preceding, Finset.mem_filter, Finset.mem_univ, true_and]
  rw [glueOrdering_apply_self i S S.card hsd hiS e₁ e₂]
  by_cases hj : j ∈ S
  · rw [glueOrdering_apply_mem i S S.card hsd hiS e₁ e₂ j hj]
    have h := (e₁ ⟨j, hj⟩).2
    simp only [hj, iff_true, Fin.lt_def]
    exact h
  · by_cases hji : j = i
    · rw [hji, glueOrdering_apply_self i S S.card hsd hiS e₁ e₂]
      simp [hiS]
    · rw [glueOrdering_apply_rest i S S.card hsd hiS e₁ e₂ j hj hji]
      have h := (e₂ ⟨j, hj, hji⟩).2
      simp only [hj, iff_false, Fin.lt_def, not_lt]
      omega

/-- Helper: for a coalition `S` avoiding `i`, the feature orderings that place
exactly `S` before `i` number `|S|! · (d − 1 − |S|)!`. -/
theorem card_orderings_preceding {d : ℕ} (i : Fin d) (S : Finset (Fin d))
    (hiS : i ∉ S) :
    (Finset.univ.filter fun τ : Equiv.Perm (Fin d) => preceding τ i = S).card
      = Nat.factorial S.card * Nat.factorial (d - 1 - S.card) := by
  classical
  have hsd : S.card < d := by
    rcases Nat.lt_or_ge S.card d with h | h
    · exact h
    · exfalso
      have hcle := Finset.card_le_univ S
      rw [Fintype.card_fin] at hcle
      have hcard : S.card = d := le_antisymm hcle h
      have huniv : S = Finset.univ :=
        Finset.eq_univ_of_card S (by rw [hcard, Fintype.card_fin])
      exact hiS (huniv ▸ Finset.mem_univ i)
  rw [← Fintype.card_subtype]
  have E : {τ : Equiv.Perm (Fin d) // preceding τ i = S} ≃
      (({x : Fin d // x ∈ S} ≃ {p : Fin d // (p : ℕ) < S.card}) ×
       ({x : Fin d // x ∉ S ∧ x ≠ i} ≃ {p : Fin d // S.card < (p : ℕ)})) :=
    { toFun := fun τ' =>
        (orderingRestrictMem i S τ'.1 (preceding_eq_iff_mem τ'.1 i S τ'.2)
          (pos_of_preceding_eq τ'.1 i S τ'.2),
         orderingRestrictRest i S τ'.1 (preceding_eq_iff_mem τ'.1 i S τ'.2)
          (pos_of_preceding_eq τ'.1 i S τ'.2)),
      invFun := fun e =>
        ⟨glueOrdering i S S.card hsd hiS e.1 e.2,
         preceding_glueOrdering i S hsd hiS e.1 e.2⟩,
      left_inv := by
        rintro ⟨τ, hτ⟩
        apply Subtype.ext
        apply Equiv.ext
        intro x
        by_cases hx : x ∈ S
        · rw [glueOrdering_apply_mem i S S.card hsd hiS _ _ x hx]
          rfl
        · by_cases hxi : x = i
          · rw [hxi, glueOrdering_apply_self i S S.card hsd hiS]
            exact Fin.ext (pos_of_preceding_eq τ i S hτ).symm
          · rw [glueOrdering_apply_rest i S S.card hsd hiS _ _ x hx hxi]
            rfl
      right_inv := by
        rintro ⟨e₁, e₂⟩
        have hmem : ∀ (x : Fin d) (hx : x ∈ S),
            glueOrdering i S S.card hsd hiS e₁ e₂ x = (e₁ ⟨x, hx⟩ : Fin d) :=
          fun x hx => glueOrdering_apply_mem i S S.card hsd hiS e₁ e₂ x hx
        refine Prod.ext ?_ ?_
        · apply Equiv.ext
          intro x
          apply Subtype.ext
          show glueOrdering i S S.card hsd hiS e₁ e₂ x.1 = (e₁ x : Fin d)
          rw [hmem x.1 x.2, Subtype.coe_eta]
        · apply Equiv.ext
          intro x
          apply Subtype.ext
          show glueOrdering i S S.card hsd hiS e₁ e₂ x.1 = (e₂ x : Fin d)
          rw [glueOrdering_apply_rest i S S.card hsd hiS e₁ e₂ x.1 x.2.1 x.2.2,
            Subtype.coe_eta] }
  rw [Fintype.card_congr E, Fintype.card_prod]
  have c1 : Fintype.card {x : Fin d // x ∈ S} = S.card :=
    Fintype.card_of_subtype S fun x => Iff.rfl
  have c2 : Fintype.card {p : Fin d // (p : ℕ) < S.card} = S.card := by
    rw [Fintype.card_subtype, card_filter_coe_lt S.card (le_of_lt hsd)]
  have c3 : Fintype.card {x : Fin d // x ∉ S ∧ x ≠ i} = d - 1 - S.card := by
    rw [Fintype.card_subtype]
    have hset : (Finset.univ.filter fun x : Fin d => x ∉ S ∧ x ≠ i)
        = Finset.univ \ insert i S := by
      ext x
      simp only [Finset.mem_filter, Finset.mem_univ, true_and, Finset.mem_sdiff,
        Finset.mem_insert, not_or]
      tauto
    rw [hset, Finset.card_sdiff (Finset.subset_univ _), Finset.card_univ,
      Fintype.card_fin, Finset.card_insert_of_not_mem hiS]
    omega
  have c4 : Fintype.card {p : Fin d // S.card < (p : ℕ)} = d - 1 - S.card := by
    rw [Fintype.card_subtype, card_filter_coe_gt S.card hsd]
    omega
  rw [Fintype.card_equiv (Fintype.equivOfCardEq (by rw [c1, c2])),
    Fintype.card_equiv (Fintype.equivOfCardEq (by rw [c3, c4])), c1, c3]

/-- C3: the Shapley value computed by the aggregator — the expectation over
uniformly random feature orderings of the marginal contribution — equals the
weighted sum over all coalitions `S` not containing `i` of
`v(S ∪ (i)) − v(S)` with combinatorial weight `|S|!·(d−|S|−1)!/d!`. -/
theorem shapleyValue_eq_weighted_sum {d : ℕ} (v : Finset (Fin d) → ℚ)
    (i : Fin d) :
    shapleyValue v i
      = ∑ S ∈ (Finset.univ.erase i).powerset,
          ((Nat.factorial S.card * Nat.factorial (d - S.card - 1) : ℕ) : ℚ)
            / (Nat.factorial d : ℚ) * marginal v S i := by
  classical
  have hmaps : ∀ τ : Equiv.Perm (Fin d), τ ∈ Finset.univ →
      preceding τ i ∈ (Finset.univ.erase i).powerset := by
    intro τ _
    rw [Finset.mem_powerset]
    intro j hj
    rw [Finset.mem_erase]
    simp only [preceding, Finset.mem_filter] at hj
    refine ⟨fun hji => ?_, Finset.mem_univ j⟩
    subst hji
    exact lt_irrefl _ hj.2
  have hfib := Finset.sum_fiberwise_of_maps_to' hmaps fun S => marginal v S i
  calc
    shapleyValue v i
        = (∑ τ : Equiv.Perm (Fin d), marginal v (preceding τ i) i)
            / (Nat.factorial d : ℚ) := rfl
    _ = (∑ S ∈ (Finset.univ.erase i).powerset,
          ∑ τ ∈ Finset.univ.filter fun τ : Equiv.Perm (Fin d) =>
            preceding τ i = S, marginal v S i) / (Nat.factorial d : ℚ) := by
      rw [hfib]
    _ = ∑ S ∈ (Finset.univ.erase i).powerset,
          ((Nat.factorial S.card * Nat.factorial (d - S.card - 1) : ℕ) : ℚ)
            * marginal v S i / (Nat.factorial d : ℚ) := by
      rw [Finset.sum_div]
      apply Finset.sum_congr rfl
      intro S hS
      have hiS : i ∉ S := by
        rw [Finset.mem_powerset] at hS
        intro hin
        exact (Finset.mem_erase.mp (hS hin)).1 rfl
      rw [Finset.sum_const, card_orderings_preceding i S hiS, nsmul_eq_mul]
      have harg : d - 1 - S.card = d - S.card - 1 := by omega
      rw [harg]
    _ = ∑ S ∈ (Finset.univ.erase i).powerset,
          ((Nat.factorial S.card * Nat.factorial (d - S.card - 1) : ℕ) : ℚ)
            / (Nat.factorial d : ℚ) * marginal v S i := by
      apply Finset.sum_congr rfl
      intro S _
      rw [div_mul_eq_mul_div]

/-- C6: reproducibility by explicit seed: every stochastic operation of the
model (imputation sampling, rollout evaluation, Shapley permutation sampling)
yields identical outputs in two runs whose contexts carry the same explicit
seed and the same inputs, whatever the ambient global random state is — no
operation reads hidden global random state. -/
theorem seeded_ops_deterministic {d : ℕ} (pol : (Fin d → ℚ) → ℕ)
    (env : EnvSim d) (imp : ImputationProvider d) (C : Finset (Fin d))
    (obs : Fin d → ℚ) (disc : ℚ) (v : Finset (Fin d) → ℚ) (i : Fin d)
    (nEpisodes horizon nPerms : ℕ) (ctx₁ ctx₂ : SeededCtx)
    (hseed : ctx₁.seed = ctx₂.seed) :
    sampleWithCtx imp C obs ctx₁ = sampleWithCtx imp C obs ctx₂ ∧
    evaluateWithCtx pol env imp C disc nEpisodes horizon ctx₁
      = evaluateWithCtx pol env imp C disc nEpisodes horizon ctx₂ ∧
    mcShapleyWithCtx v i nPerms ctx₁ = mcShapleyWithCtx v i nPerms ctx₂ := by
  refine ⟨?_, ?_, ?_⟩
  · rw [sampleWithCtx, sampleWithCtx, hseed]
  · rw [evaluateWithCtx, evaluateWithCtx, hseed]
  · rw [mcShapleyWithCtx, mcShapleyWithCtx, hseed]

/-- Witness for C6 at two concrete contexts sharing a seed but differing in
the ambient global random state. -/
theorem seeded_ops_deterministic_witness :
    sampleWithCtx impW {0} (fun _ => 1) ctxA = sampleWithCtx impW {0} (fun _ => 1) ctxB ∧
    evaluateWithCtx polW envW impW {0} (9/10) 2 3 ctxA
      = evaluateWithCtx polW envW impW {0} (9/10) 2 3 ctxB ∧
    mcShapleyWithCtx vW 0 2 ctxA = mcShapleyWithCtx vW 0 2 ctxB :=
  seeded_ops_deterministic polW envW impW {0} (fun _ => 1) (9/10) vW 0 2 3 2
    ctxA ctxB rfl

/-- C8: per-episode errors abort only their episode: the batch statistics are
computed over the surviving episodes alone, acceptance requires at least the
configured minimum number of survivors (and at least one), a coalition whose
evaluation has zero surviving episodes fails the whole `value()` request with
an error instead of returning any `CharacteristicValue`, and the results of
the other coalitions of an aggregation run are preserved unchanged next to a
failing one. -/
theorem evaluateFallible_spec {d : ℕ}
    (episodeFor : Finset (Fin d) → ℕ → Option ℚ) (nEpisodes minSurvivors : ℕ)
    (coalitions : List (Finset (Fin d))) (C : Finset (Fin d))
    (hC : C ∈ coalitions) :
    (survivingReturns (episodeFor C) nEpisodes = [] →
      evaluateFallible (episodeFor C) nEpisodes minSurvivors
        = .error .zeroSurvivors) ∧
    (∀ val, evaluateFallible (episodeFor C) nEpisodes minSurvivors = .ok val →
      1 ≤ (survivingReturns (episodeFor C) nEpisodes).length ∧
      minSurvivors ≤ (survivingReturns (episodeFor C) nEpisodes).length ∧
      val = ⟨listMean (survivingReturns (episodeFor C) nEpisodes),
             listStdErrSq (survivingReturns (episodeFor C) nEpisodes),
             (survivingReturns (episodeFor C) nEpisodes).length⟩) ∧
    (C, evaluateFallible (episodeFor C) nEpisodes minSurvivors)
        ∈ aggregationRun episodeFor nEpisodes minSurvivors coalitions := by
  refine ⟨?_, ?_, ?_⟩
  · intro h
    simp only [evaluateFallible, h]
    rfl
  · intro val hval
    simp only [evaluateFallible] at hval
    split_ifs at hval with h1 h2
    rw [Except.ok.injEq] at hval
    exact ⟨by omega, by omega, hval.symm⟩
  · rw [aggregationRun]
    exact List.mem_map.mpr ⟨C, hC, rfl⟩

/-- Witness for C8 at the empty coalition of the concrete aggregation run: it
survives zero episodes, and the theorem applies to it. -/
theorem evaluateFallible_spec_witness :
    ∅ ∈ coalitionsW ∧
    ((survivingReturns (episodeForW ∅) 4 = [] →
      evaluateFallible (episodeForW ∅) 4 1 = .error .zeroSurvivors) ∧
    (∀ val, evaluateFallible (episodeForW ∅) 4 1 = .ok val →
      1 ≤ (survivingReturns (episodeForW ∅) 4).length ∧
      1 ≤ (survivingReturns (episodeForW ∅) 4).length ∧
      val = ⟨listMean (survivingReturns (episodeForW ∅) 4),
             listStdErrSq (survivingReturns (episodeForW ∅) 4),
             (survivingReturns (episodeForW ∅) 4).length⟩) ∧
    (∅, evaluateFallible (episodeForW ∅) 4 1)
        ∈ aggregationRun episodeForW 4 1 coalitionsW) :=
  ⟨by decide, evaluateFallible_spec episodeForW 4 1 coalitionsW ∅ (by decide)⟩

/-- C9: for every imputation provider, coalition, observed partial state and
sample count, validated sampling only returns samples within the environment's
observation bounds; an out-of-bound sample makes the call report a
`SamplingError` carrying the offending coalition and method instead of
silently clipping, unless an environment-specific clipping policy is
explicitly configured, in which case the samples are the clipped ones, which
lie within (well-formed) bounds. -/
theorem checkedSamples_spec {d : ℕ} (b : ObsBounds d)
    (imp : ImputationProvider d) (methodId : ℕ) (C : Finset (Fin d))
    (obs : Fin d → ℚ) (n seed : ℕ) (_hn : 1 ≤ n) :
    (∀ samples, checkedSamples b false imp methodId C obs n seed = .ok samples →
      ∀ s ∈ samples, withinBounds b s = true) ∧
    ((∃ t, t < n ∧ withinBounds b (imp.sample C obs (Nat.pair seed t)) = false) →
      checkedSamples b false imp methodId C obs n seed
        = .error ⟨C, methodId⟩) ∧
    (checkedSamples b true imp methodId C obs n seed
      = .ok (((List.range n).map fun t => imp.sample C obs (Nat.pair seed t)).map
          (clipState b))) ∧
    ((∀ j, b.lo j ≤ b.hi j) →
      ∀ samples, checkedSamples b true imp methodId C obs n seed = .ok samples →
        ∀ s ∈ samples, withinBounds b s = true) := by
  have hclip : ∀ s : Fin d → ℚ, (∀ j, b.lo j ≤ b.hi j) →
      withinBounds b (clipState b s) = true := by
    intro s hlo
    apply List.all_eq_true.mpr
    intro j _
    simp only [clipState]
    rw [Bool.and_eq_true, decide_eq_true_eq, decide_eq_true_eq]
    exact ⟨le_max_left _ _, max_le (hlo j) (min_le_left _ _)⟩
  refine ⟨?_, ?_, rfl, ?_⟩
  · intro samples h s hs
    simp only [checkedSamples] at h
    by_cases hall :
        (((List.range n).map fun t => imp.sample C obs (Nat.pair seed t)).all
          (withinBounds b)) = true
    · rw [if_pos hall, Except.ok.injEq] at h
      subst h
      exact List.all_eq_true.mp hall s hs
    · rw [if_neg hall] at h
      exact absurd h (by simp)
  · rintro ⟨t, ht, hbad⟩
    simp only [checkedSamples]
    rw [if_neg]
    intro hall
    have hmem := List.all_eq_true.mp hall (imp.sample C obs (Nat.pair seed t))
      (List.mem_map.mpr ⟨t, List.mem_range.mpr ht, rfl⟩)
    rw [hbad] at hmem
    exact absurd hmem (by simp)
  · intro hlo samples h s hs
    simp only [checkedSamples, Except.ok.injEq] at h
    subst h
    obtain ⟨r, _, rfl⟩ := List.mem_map.mp hs
    exact hclip r hlo

/-- Witness for C9 at concrete bounds, provider, coalition and sample count. -/
theorem checkedSamples_spec_witness :
    (∀ samples, checkedSamples boundsW false impW 1 {0} (fun _ => 1) 2 0 = .ok samples →
      ∀ s ∈ samples, withinBounds boundsW s = true) ∧
    ((∃ t, t < 2 ∧
        withinBounds boundsW (impW.sample {0} (fun _ => 1) (Nat.pair 0 t)) = false) →
      checkedSamples boundsW false impW 1 {0} (fun _ => 1) 2 0
        = .error ⟨{0}, 1⟩) ∧
    (checkedSamples boundsW true impW 1 {0} (fun _ => 1) 2 0
      = .ok (((List.range 2).map fun t => impW.sample {0} (fun _ => 1) (Nat.pair 0 t)).map
          (clipState boundsW))) ∧
    ((∀ j, boundsW.lo j ≤ boundsW.hi j) →
      ∀ samples, checkedSamples boundsW true impW 1 {0} (fun _ => 1) 2 0 = .ok samples →
        ∀ s ∈ samples, withinBounds boundsW s = true) :=
  checkedSamples_spec boundsW impW 1 {0} (fun _ => 1) 2 0 (by decide)

/-- C10: in the notebook's LunarLander visualization loop, `obs` is assigned
only by `env.reset()`: after any number of iterations the `obs` variable still
holds the observation returned by the most recent reset, so the action is
computed from that observation and not from the environment's current state;
whenever the step does not terminate or truncate, the iteration leaves `obs`
untouched (the step result is bound to `state` and never written back). -/
theorem viz_obs_from_last_reset {E O A P : Type} (M : VizModel E O A P)
    (e0 : E) (n : ℕ) :
    (vizRun M e0 n).obs = (vizRun M e0 n).lastResetObs ∧
    (M.predict (vizRun M e0 n).obs).1
        = (M.predict (vizRun M e0 n).lastResetObs).1 ∧
    (∀ s : VizState E O,
      ((M.step s.env (M.predict s.obs).1).terminated
        || (M.step s.env (M.predict s.obs).1).truncated) = false →
      (vizStep M s).obs = s.obs) := by
  have hstep : ∀ s : VizState E O,
      (vizStep M s).obs = (vizStep M s).lastResetObs ∨
      ((vizStep M s).obs = s.obs ∧ (vizStep M s).lastResetObs = s.lastResetObs) := by
    intro s
    simp only [vizStep]
    by_cases hc : ((M.step s.env (M.predict s.obs).1).terminated
        || (M.step s.env (M.predict s.obs).1).truncated) = true
    · rw [if_pos hc]
      exact Or.inl rfl
    · rw [if_neg hc]
      exact Or.inr ⟨rfl, rfl⟩
  have hinv : (vizRun M e0 n).obs = (vizRun M e0 n).lastResetObs := by
    induction n with
    | zero => simp [vizRun, vizInit]
    | succ m ih =>
      have hrun : vizRun M e0 (m + 1) = vizStep M (vizRun M e0 m) := by
        simp [vizRun, Function.iterate_succ_apply']
      rw [hrun]
      rcases hstep (vizRun M e0 m) with h | ⟨h1, h2⟩
      · exact h
      · rw [h1, h2]
        exact ih
  refine ⟨hinv, by rw [hinv], ?_⟩
  intro s h
  have hc : ¬(((M.step s.env (M.predict s.obs).1).terminated
      || (M.step s.env (M.predict s.obs).1).truncated) = true) := by
    rw [h]
    simp
  simp only [vizStep]
  rw [if_neg hc]

/-- Witness for C10 at the concrete visualization model after five
iterations. -/
theorem viz_obs_from_last_reset_witness :
    (vizRun vizModelW 0 5).obs = (vizRun vizModelW 0 5).lastResetObs ∧
    (vizModelW.predict (vizRun vizModelW 0 5).obs).1
        = (vizModelW.predict (vizRun vizModelW 0 5).lastResetObs).1 ∧
    (∀ s : VizState ℕ ℚ,
      ((vizModelW.step s.env (vizModelW.predict s.obs).1).terminated
        || (vizModelW.step s.env (vizModelW.predict s.obs).1).truncated) = false →
      (vizStep vizModelW s).obs = s.obs) :=
  viz_obs_from_last_reset vizModelW 0 5

/-- Helper: a request for a cached key is answered from the cache. -/
theorem applyEvent_request_hit (cf : CharacteristicKey → CharacteristicValue)
    (st : FlightState) (c : ℕ) (k : CharacteristicKey)
    (v : CharacteristicValue) (h : st.cache k = some v) :
    applyEvent cf st (.request c k)
      = { st with results := (c, k, v) ::ₘ st.results } := by
  simp only [applyEvent, h]

/-- Helper: a request for an uncached in-flight key joins the waiters. -/
theorem applyEvent_request_wait (cf : CharacteristicKey → CharacteristicValue)
    (st : FlightState) (c : ℕ) (k : CharacteristicKey)
    (h : st.cache k = none) (hf : st.inFlight k = true) :
    applyEvent cf st (.request c k)
      = { st with waiters := (c, k) ::ₘ st.waiters } := by
  simp only [applyEvent, h, hf, if_true]

/-- Helper: a request for an uncached idle key starts the single
computation. -/
theorem applyEvent_request_start (cf : CharacteristicKey → CharacteristicValue)
    (st : FlightState) (c : ℕ) (k : CharacteristicKey)
    (h : st.cache k = none) (hf : st.inFlight k = false) :
    applyEvent cf st (.request c k)
      = { st with
            inFlight := Function.update st.inFlight k true
            waiters := (c, k) ::ₘ st.waiters
            computes := Function.update st.computes k (st.computes k + 1) } := by
  simp only [applyEvent, h, hf]
  rfl

/-- Helper: completing an in-flight key persists the value, answers every
waiter of that key, and clears the in-flight mark. -/
theorem applyEvent_complete_pos (cf : CharacteristicKey → CharacteristicValue)
    (st : FlightState) (k : CharacteristicKey) (hf : st.inFlight k = true) :
    applyEvent cf st (.complete k)
      = { st with
            cache := Function.update st.cache k (some (cf k))
            inFlight := Function.update st.inFlight k false
            results := (Multiset.filter (fun w => w.2 = k) st.waiters).map
                (fun w => (w.1, k, cf k)) + st.results
            waiters := Multiset.filter (fun w => ¬(w.2 = k)) st.waiters } := by
  simp only [applyEvent, hf, if_true]

/-- Helper: a completion for a key not in flight is a no-op. -/
theorem applyEvent_complete_neg (cf : CharacteristicKey → CharacteristicValue)
    (st : FlightState) (k : CharacteristicKey) (hf : st.inFlight k = false) :
    applyEvent cf st (.complete k) = st := by
  simp only [applyEvent, hf]
  rfl

/-- Helper: requests for distinct keys commute. -/
theorem comm_rr (cf : CharacteristicKey → CharacteristicValue)
    (st : FlightState) (c₁ : ℕ) (k₁ : CharacteristicKey) (c₂ : ℕ)
    (k₂ : CharacteristicKey) (hk : k₁ ≠ k₂) :
    applyEvent cf (applyEvent cf st (.request c₁ k₁)) (.request c₂ k₂)
      = applyEvent cf (applyEvent cf st (.request c₂ k₂)) (.request c₁ k₁) := by
  have hb₁ : ∀ v, Function.update st.inFlight k₁ v k₂ = st.inFlight k₂ :=
    fun v => Function.update_noteq (Ne.symm hk) v st.inFlight
  have hb₂ : ∀ v, Function.update st.inFlight k₂ v k₁ = st.inFlight k₁ :=
    fun v => Function.update_noteq hk v st.inFlight
  have hn₁ : ∀ v, Function.update st.computes k₁ v k₂ = st.computes k₂ :=
    fun v => Function.update_noteq (Ne.symm hk) v st.computes
  have hn₂ : ∀ v, Function.update st.computes k₂ v k₁ = st.computes k₁ :=
    fun v => Function.update_noteq hk v st.computes
  rcases h₁ : st.cache k₁ with _ | v₁ <;> rcases h₂ : st.cache k₂ with _ | v₂ <;>
    rcases hf₁ : st.inFlight k₁ with _ | _ <;>
    rcases hf₂ : st.inFlight k₂ with _ | _ <;>
    simp only [applyEvent, h₁, h₂, hf₁, hf₂, hb₁, hb₂, hn₁, hn₂,
      Bool.false_eq_true, if_false, if_true] <;>
    ext <;>
    first
      | rfl
      | exact Multiset.cons_swap _ _ _
      | (simp only [Function.update_apply]
         split_ifs <;> simp_all)
      | (simp only [Multiset.count_cons]
         ring)

/-- Helper: a request and a completion for distinct keys commute. -/
theorem comm_rc (cf : CharacteristicKey → CharacteristicValue)
    (st : FlightState) (c₁ : ℕ) (k₁ k₂ : CharacteristicKey) (hk : k₁ ≠ k₂) :
    applyEvent cf (applyEvent cf st (.request c₁ k₁)) (.complete k₂)
      = applyEvent cf (applyEvent cf st (.complete k₂)) (.request c₁ k₁) := by
  have hb₁ : ∀ v, Function.update st.inFlight k₁ v k₂ = st.inFlight k₂ :=
    fun v => Function.update_noteq (Ne.symm hk) v st.inFlight
  have hb₂ : ∀ v, Function.update st.inFlight k₂ v k₁ = st.inFlight k₁ :=
    fun v => Function.update_noteq hk v st.inFlight
  have hc₂ : ∀ v, Function.update st.cache k₂ v k₁ = st.cache k₁ :=
    fun v => Function.update_noteq hk v st.cache
  have hwf : Multiset.filter (fun w => ¬(w.2 = k₂)) ((c₁, k₁) ::ₘ st.waiters)
      = (c₁, k₁) ::ₘ Multiset.filter (fun w => ¬(w.2 = k₂)) st.waiters :=
    Multiset.filter_cons_of_pos _ hk
  have hrf : Multiset.filter (fun w => w.2 = k₂) ((c₁, k₁) ::ₘ st.waiters)
      = Multiset.filter (fun w => w.2 = k₂) st.waiters :=
    Multiset.filter_cons_of_neg _ hk
  rcases h₁ : st.cache k₁ with _ | v₁ <;>
    rcases hf₁ : st.inFlight k₁ with _ | _ <;>
    rcases hf₂ : st.inFlight k₂ with _ | _ <;>
    simp only [applyEvent, h₁, hf₁, hf₂, hb₁, hb₂, hc₂, hwf, hrf,
      Bool.false_eq_true, if_false, if_true] <;>
    ext <;>
    first
      | rfl
      | exact Multiset.cons_swap _ _ _
      | (simp only [Function.update_apply]
         split_ifs <;> simp_all)
      | (simp only [Multiset.count_add, Multiset.count_cons]
         ring)

/-- Helper: completions for distinct keys commute. -/
theorem comm_cc (cf : CharacteristicKey → CharacteristicValue)
    (st : FlightState) (k₁ k₂ : CharacteristicKey) (hk : k₁ ≠ k₂) :
    applyEvent cf (applyEvent cf st (.complete k₁)) (.complete k₂)
      = applyEvent cf (applyEvent cf st (.complete k₂)) (.complete k₁) := by
  have hb₁ : ∀ v, Function.update st.inFlight k₁ v k₂ = st.inFlight k₂ :=
    fun v => Function.update_noteq (Ne.symm hk) v st.inFlight
  have hb₂ : ∀ v, Function.update st.inFlight k₂ v k₁ = st.inFlight k₁ :=
    fun v => Function.update_noteq hk v st.inFlight
  have hff₁ : Multiset.filter (fun w => w.2 = k₂)
      (Multiset.filter (fun w => ¬(w.2 = k₁)) st.waiters)
      = Multiset.filter (fun w => w.2 = k₂) st.waiters := by
    rw [Multiset.filter_filter]
    apply Multiset.filter_congr
    intro w _
    constructor
    · exact fun h => h.1
    · exact fun h => ⟨h, fun h' => hk (h'.symm.trans h)⟩
  have hff₂ : Multiset.filter (fun w => w.2 = k₁)
      (Multiset.filter (fun w => ¬(w.2 = k₂)) st.waiters)
      = Multiset.filter (fun w => w.2 = k₁) st.waiters := by
    rw [Multiset.filter_filter]
    apply Multiset.filter_congr
    intro w _
    constructor
    · exact fun h => h.1
    · exact fun h => ⟨h, fun h' => hk (h.symm.trans h')⟩
  have hffn : Multiset.filter (fun w => ¬(w.2 = k₂))
      (Multiset.filter (fun w => ¬(w.2 = k₁)) st.waiters)
      = Multiset.filter (fun w => ¬(w.2 = k₁))
        (Multiset.filter (fun w => ¬(w.2 = k₂)) st.waiters) := by
    rw [Multiset.filter_filter, Multiset.filter_filter]
    apply Multiset.filter_congr
    intro w _
    constructor
    · exact fun h => ⟨h.2, h.1⟩
    · exact fun h => ⟨h.2, h.1⟩
  rcases hf₁ : st.inFlight k₁ with _ | _ <;>
    rcases hf₂ : st.inFlight k₂ with _ | _ <;>
    simp only [applyEvent, hf₁, hf₂, hb₁, hb₂, hff₁, hff₂, hffn,
      Bool.false_eq_true, if_false, if_true] <;>
    ext <;>
    first
      | rfl
      | (simp only [Function.update_apply]
         split_ifs <;> simp_all)
      | (simp only [Multiset.count_add, Multiset.count_cons]
         ring)

/-- Helper: protocol steps on distinct keys commute: requests for different
keys are processed fully independently. -/
theorem applyEvent_comm (cf : CharacteristicKey → CharacteristicValue)
    (st : FlightState) (e₁ e₂ : FlightEvent) (hk : e₁.key ≠ e₂.key) :
    applyEvent cf (applyEvent cf st e₁) e₂
      = applyEvent cf (applyEvent cf st e₂) e₁ := by
  cases e₁ with
  | request c₁ k₁ =>
    cases e₂ with
    | request c₂ k₂ => exact comm_rr cf st c₁ k₁ c₂ k₂ hk
    | complete k₂ => exact comm_rc cf st c₁ k₁ k₂ hk
  | complete k₁ =>
    cases e₂ with
    | request c₂ k₂ => exact (comm_rc cf st c₂ k₂ k₁ fun h => hk h.symm).symm
    | complete k₂ => exact comm_cc cf st k₁ k₂ hk

/-- Helper: one protocol step preserves the computation-count accounting: the
counter of `k` reads 1 when `k` is busy (cached or in flight) and 0
otherwise. -/
theorem computes_invariant_step (cf : CharacteristicKey → CharacteristicValue)
    (st : FlightState) (e : FlightEvent) (k : CharacteristicKey)
    (h : st.computes k = if st.busy k = true then 1 else 0) :
    (applyEvent cf st e).computes k
      = if (applyEvent cf st e).busy k = true then 1 else 0 := by
  cases e with
  | request c k' =>
    rcases hc : st.cache k' with _ | v
    · rcases hf : st.inFlight k' with _ | _
      · rw [applyEvent_request_start cf st c k' hc hf]
        by_cases hkk : k' = k
        · subst hkk
          simp only [FlightState.busy, hc, hf, Option.isSome_none,
            Bool.or_false, if_false] at h
          simp [FlightState.busy, Function.update_same, hc, h]
        · simpa [FlightState.busy, Function.update_noteq (Ne.symm hkk)] using h
      · rw [applyEvent_request_wait cf st c k' hc hf]
        simpa [FlightState.busy] using h
    · rw [applyEvent_request_hit cf st c k' v hc]
      simpa [FlightState.busy] using h
  | complete k' =>
    rcases hf : st.inFlight k' with _ | _
    · rw [applyEvent_complete_neg cf st k' hf]
      exact h
    · rw [applyEvent_complete_pos cf st k' hf]
      by_cases hkk : k' = k
      · subst hkk
        simp only [FlightState.busy, hf, Bool.or_true, if_true] at h
        simp [FlightState.busy, Function.update_same, h]
      · simpa [FlightState.busy, Function.update_noteq (Ne.symm hkk)] using h

/-- Helper: the computation-count accounting holds along any run. -/
theorem computes_invariant_run (cf : CharacteristicKey → CharacteristicValue)
    (k : CharacteristicKey) (es : List FlightEvent) : ∀ st : FlightState,
    st.computes k = (if st.busy k = true then 1 else 0) →
    (runEvents cf st es).computes k
      = if (runEvents cf st es).busy k = true then 1 else 0 := by
  induction es with
  | nil => exact fun st h => h
  | cons e es ih => exact fun st h => ih _ (computes_invariant_step cf st e k h)

/-- Helper: a busy key stays busy across any protocol step. -/
theorem busy_step_mono (cf : CharacteristicKey → CharacteristicValue)
    (st : FlightState) (e : FlightEvent) (k : CharacteristicKey)
    (h : st.busy k = true) : (applyEvent cf st e).busy k = true := by
  cases e with
  | request c k' =>
    rcases hc : st.cache k' with _ | v
    · rcases hf : st.inFlight k' with _ | _
      · rw [applyEvent_request_start cf st c k' hc hf]
        by_cases hkk : k' = k
        · subst hkk
          simp [FlightState.busy, Function.update_same]
        · simpa [FlightState.busy, Function.update_noteq (Ne.symm hkk)] using h
      · rw [applyEvent_request_wait cf st c k' hc hf]
        simpa [FlightState.busy] using h
    · rw [applyEvent_request_hit cf st c k' v hc]
      simpa [FlightState.busy] using h
  | complete k' =>
    rcases hf : st.inFlight k' with _ | _
    · rw [applyEvent_complete_neg cf st k' hf]
      exact h
    · rw [applyEvent_complete_pos cf st k' hf]
      by_cases hkk : k' = k
      · subst hkk
        simp [FlightState.busy, Function.update_same]
      · simpa [FlightState.busy, Function.update_noteq (Ne.symm hkk)] using h

/-- Helper: a busy key stays busy along any run. -/
theorem busy_run_mono (cf : CharacteristicKey → CharacteristicValue)
    (k : CharacteristicKey) (es : List FlightEvent) : ∀ st : FlightState,
    st.busy k = true → (runEvents cf st es).busy k = true := by
  induction es with
  | nil => exact fun st h => h
  | cons e es ih => exact fun st h => ih _ (busy_step_mono cf st e k h)

/-- Helper: a request makes its key busy. -/
theorem busy_after_request (cf : CharacteristicKey → CharacteristicValue)
    (st : FlightState) (c : ℕ) (k : CharacteristicKey) :
    (applyEvent cf st (.request c k)).busy k = true := by
  rcases hc : st.cache k with _ | v
  · rcases hf : st.inFlight k with _ | _
    · rw [applyEvent_request_start cf st c k hc hf]
      simp [FlightState.busy, Function.update_same]
    · rw [applyEvent_request_wait cf st c k hc hf]
      simp [FlightState.busy, hf]
  · rw [applyEvent_request_hit cf st c k v hc]
    simp [FlightState.busy, hc]

/-- Helper: once a run contains a request for `k`, the final state has `k`
busy. -/
theorem busy_run_of_request_mem (cf : CharacteristicKey → CharacteristicValue)
    (k : CharacteristicKey) (es : List FlightEvent) : ∀ (st : FlightState)
    (c : ℕ), FlightEvent.request c k ∈ es →
    (runEvents cf st es).busy k = true := by
  induction es with
  | nil =>
    intro st c h
    cases h
  | cons e es ih =>
    intro st c h
    rcases List.mem_cons.mp h with he | hmem
    · rw [← he]
      exact busy_run_mono cf k es _ (busy_after_request cf st c k)
    · exact ih _ c hmem

/-- Helper: one step preserves "every response delivered for `k`, and any
cached value at `k`, is the computed value `cf k`". -/
theorem results_agree_step (cf : CharacteristicKey → CharacteristicValue)
    (k : CharacteristicKey) (st : FlightState) (e : FlightEvent)
    (h1 : ∀ r ∈ st.results, r.2.1 = k → r.2.2 = cf k)
    (h2 : ∀ v, st.cache k = some v → v = cf k) :
    (∀ r ∈ (applyEvent cf st e).results, r.2.1 = k → r.2.2 = cf k) ∧
    (∀ v, (applyEvent cf st e).cache k = some v → v = cf k) := by
  cases e with
  | request c k' =>
    rcases hc : st.cache k' with _ | v
    · rcases hf : st.inFlight k' with _ | _
      · rw [applyEvent_request_start cf st c k' hc hf]
        exact ⟨h1, h2⟩
      · rw [applyEvent_request_wait cf st c k' hc hf]
        exact ⟨h1, h2⟩
    · rw [applyEvent_request_hit cf st c k' v hc]
      refine ⟨?_, h2⟩
      intro r hr hrk
      rcases Multiset.mem_cons.mp hr with hre | hmem
      · subst hre
        have hk' : k' = k := hrk
        rw [hk'] at hc
        exact h2 v hc
      · exact h1 r hmem hrk
  | complete k' =>
    rcases hf : st.inFlight k' with _ | _
    · rw [applyEvent_complete_neg cf st k' hf]
      exact ⟨h1, h2⟩
    · rw [applyEvent_complete_pos cf st k' hf]
      constructor
      · intro r hr hrk
        rcases Multiset.mem_add.mp hr with hnew | hold
        · obtain ⟨w, _, hrw⟩ := Multiset.mem_map.mp hnew
          subst hrw
          have hk' : k' = k := hrk
          rw [hk']
        · exact h1 r hold hrk
      · intro v hv
        by_cases hkk : k' = k
        · subst hkk
          simp only [Function.update_same] at hv
          exact (Option.some.inj hv).symm
        · simp only [Function.update_noteq (Ne.symm hkk)] at hv
          exact h2 v hv

/-- Helper: along any run, every response delivered for `k` carries the
computed value `cf k`. -/
theorem results_agree_run (cf : CharacteristicKey → CharacteristicValue)
    (k : CharacteristicKey) (es : List FlightEvent) : ∀ st : FlightState,
    (∀ r ∈ st.results, r.2.1 = k → r.2.2 = cf k) →
    (∀ v, st.cache k = some v → v = cf k) →
    ∀ r ∈ (runEvents cf st es).results, r.2.1 = k → r.2.2 = cf k := by
  induction es with
  | nil => exact fun st h1 _ => h1
  | cons e es ih =>
    intro st h1 h2
    obtain ⟨h1', h2'⟩ := results_agree_step cf k st e h1 h2
    exact ih _ h1' h2'

/-- C7: single-flight and parallelism of the concurrent cache protocol.  From
the initial state (every key uncached), any interleaving containing at least
one request for `k` executes the underlying computation for `k` exactly once;
every interleaving whatsoever executes it at most once; every caller that
receives a response for `k` receives the same value (the single computed
result); and protocol steps on distinct keys commute, so requests for
different keys proceed fully independently in parallel. -/
theorem concurrent_single_flight (cf : CharacteristicKey → CharacteristicValue)
    (k : CharacteristicKey) (es es' : List FlightEvent) (c₀ : ℕ)
    (hreq : FlightEvent.request c₀ k ∈ es)
    (st : FlightState) (e₁ e₂ : FlightEvent) (hk : e₁.key ≠ e₂.key) :
    (runEvents cf FlightState.init es).computes k = 1 ∧
    (runEvents cf FlightState.init es').computes k ≤ 1 ∧
    (∀ c v, (c, k, v) ∈ (runEvents cf FlightState.init es).results → v = cf k) ∧
    applyEvent cf (applyEvent cf st e₁) e₂
      = applyEvent cf (applyEvent cf st e₂) e₁ := by
  have hinit : FlightState.init.computes k
      = if FlightState.init.busy k = true then 1 else 0 := by
    simp [FlightState.init, FlightState.busy]
  refine ⟨?_, ?_, ?_, applyEvent_comm cf st e₁ e₂ hk⟩
  · have hcount := computes_invariant_run cf k es FlightState.init hinit
    rw [busy_run_of_request_mem cf k es FlightState.init c₀ hreq] at hcount
    simpa using hcount
  · rw [computes_invariant_run cf k es' FlightState.init hinit]
    split_ifs <;> omega
  · intro c v hv
    exact results_agree_run cf k es FlightState.init
      (fun r hr => absurd hr (Multiset.not_mem_zero r))
      (fun v' hv' => by simp [FlightState.init] at hv')
      (c, k, v) hv rfl

/-- Witness for C7: two concurrent requests for the same uncached key followed
by the completion of its single computation, with two distinct-key steps for
the commutation part. -/
theorem concurrent_single_flight_witness :
    (runEvents computeFnW FlightState.init eventsW).computes ⟨{0}, 1, 2⟩ = 1 ∧
    (runEvents computeFnW FlightState.init eventsW).computes ⟨{0}, 1, 2⟩ ≤ 1 ∧
    (∀ c v, (c, (⟨{0}, 1, 2⟩ : CharacteristicKey), v)
        ∈ (runEvents computeFnW FlightState.init eventsW).results →
      v = computeFnW ⟨{0}, 1, 2⟩) ∧
    applyEvent computeFnW
        (applyEvent computeFnW FlightState.init (.request 0 ⟨{0}, 1, 2⟩))
        (.complete ⟨∅, 0, 0⟩)
      = applyEvent computeFnW
          (applyEvent computeFnW FlightState.init (.complete ⟨∅, 0, 0⟩))
          (.request 0 ⟨{0}, 1, 2⟩) :=
  concurrent_single_flight computeFnW ⟨{0}, 1, 2⟩ eventsW eventsW 0
    (by simp [eventsW]) FlightState.init (.request 0 ⟨{0}, 1, 2⟩)
    (.complete ⟨∅, 0, 0⟩) (by decide)

end XRL
